import Mathlib

/-!
Verification model of `q_ambientcg_extract` (`src/main.rs`): the texture-set
materializer.  File names are modelled as `String` / `List Char`, images at
the level the program inspects them (dimensions, per-pixel channel values,
pixel encoding).  Filesystem and codec calls are external collaborators;
functions that can panic in the source are modelled with `Option`.
-/

namespace Acge

/-- Longest common leading run of two character lists. -/
def lcpL : List Char → List Char → List Char
  | a :: as, b :: bs => if a = b then a :: lcpL as bs else []
  | _, _ => []

/-- Modelled from the spec: `common_prefix` lives in the repository's `utils`
module, which is not under `src/`; the spec calls its result "the longest
common leading substring" of the two strings. -/
def commonPref (a b : String) : String := ⟨lcpL a.data b.data⟩

/-- `Path::extension` restricted to a plain file name (used by
`correct_extension`, `main.rs` 73-81): the part after the last dot, where a
dot at position zero does not count. -/
def extOfL (l : List Char) : Option (List Char) :=
  match l.reverse.dropWhile (fun c => c != '.') with
  | [] => none
  | [_] => none
  | _ => some (l.reverse.takeWhile (fun c => c != '.')).reverse

def extOf (name : String) : Option String := (extOfL name.data).map fun l => ⟨l⟩

/-- `Path::file_stem` on a plain file name: the part before the last dot,
where a dot at position zero does not count. -/
def fileStemL (l : List Char) : List Char :=
  match l.reverse.dropWhile (fun c => c != '.') with
  | [] => l
  | [_] => l
  | _ :: rest => rest.reverse

def fileStem (name : String) : String := ⟨fileStemL name.data⟩

/-- `correct_extension` (`main.rs` 73-81): `Ok` exactly when the extension is
`"png"`; a missing extension surfaces as an `indoc_str` error, which the one
caller treats the same as a wrong extension. -/
def correctExtension (name : String) : Bool := extOf name == some "png"

/-- Accumulator of the directory scan loop (`main.rs` 181-217). -/
structure ScanAcc where
  filePaths : List String
  toDelete : List String
  shortestIdx : Nat
  shortestLen : Nat

def usizeMax : Nat := 2 ^ 64 - 1

/-- One iteration of the scan loop (`main.rs` 188-217), for a non-directory
entry with the given file name. -/
def scanStep (acc : ScanAcc) (name : String) : ScanAcc :=
  if correctExtension name then
    if name.length < acc.shortestLen then
      { acc with
        filePaths := acc.filePaths ++ [name]
        shortestIdx := acc.filePaths.length
        shortestLen := name.length }
    else
      { acc with filePaths := acc.filePaths ++ [name] }
  else
    { acc with toDelete := acc.toDelete ++ [name] }

/-- The whole scan of the extract directory (`main.rs` 181-217), over the
file names in directory-iteration order. -/
def scanDir (names : List String) : ScanAcc :=
  names.foldl scanStep ⟨[], [], 0, usizeMax⟩

/-- The `(file_paths.len(), shortest_file_name_index, shortest_file_name_len)`
components of `scanStep`, on the sub-list of eligible names. -/
def thumbStep (acc : Nat × Nat × Nat) (name : String) : Nat × Nat × Nat :=
  if name.length < acc.2.2 then (acc.1 + 1, acc.1, name.length)
  else (acc.1 + 1, acc.2.1, acc.2.2)

/-- `shortest_common_prefix` (`main.rs` 233-242): start from the first
remaining file name and fold `common_prefix` over all of them.  Note the
fold is over full file names, extension included. -/
def sharedLcp (names : List String) : Option String :=
  match names.head? with
  | none => none
  | some first => some (names.foldl commonPref first)

/-- Line 269 of `main.rs`:
`file_path.file_stem()...split_at(shortest_common_prefix.len()).1`.
`none` models the panic of `split_at` when the shared prefix is longer than
the stem. -/
def stemSuffix (pre name : String) : Option String :=
  if pre.length ≤ (fileStem name).length then
    some ⟨(fileStem name).data.drop pre.length⟩
  else none

/-- Following the words of claim C1: the pairwise longest-common-prefix
reduction over the remaining files' stems (file names with the extension
removed). -/
def stemLcpSpec (names : List String) : Option String :=
  match (names.map fileStem).head? with
  | none => none
  | some first => some ((names.map fileStem).foldl commonPref first)

/-- The roughness-map search (`main.rs` 244-253): find a remaining file whose
full file name equals `shortest_common_prefix + "Roughness"`. -/
def findRoughness (pre : String) (names : List String) : Option String :=
  names.find? fun n => n == pre ++ "Roughness"

/-- Pixel encodings distinguished by `main.rs` (the `image` crate's
`ColorType`); `other` stands for any further variant of that non-exhaustive
enum. -/
inductive ColorType where
  | L8
  | La8
  | Rgb8
  | Rgba8
  | L16
  | La16
  | Rgb16
  | Rgba16
  | Rgb32F
  | Rgba32F
  | other
deriving DecidableEq

/-- `ProcessingMethod` (`main.rs` 19-22): a single image processes alone
(with its `ImageBake` data inlined), a dependent one is buffered for the
channel packer. -/
inductive ProcessingMethod where
  | single (rename : String) (configLines : List String) (color : Option ColorType)
  | dependent
deriving DecidableEq

/-- `ImageBake::from_postfix_path` (`main.rs` 51-69); an absent
`config_lines` is modelled as the empty list, and `edited_image` is always
`None` there. -/
def fromPostfixPath (s : String) : Option ProcessingMethod :=
  match s with
  | "AmbientOcclusion" => some (.single "ao" ["ao = true"] none)
  | "Color" => some (.single "color" [] none)
  | "Displacement" => some (.single "depth" ["depth = 0.01", "depth_method = 8"] none)
  | "NormalGL" => some (.single "normal" ["normal = \"OpenGL\""] (some .Rgb16))
  | "Metalness" => some .dependent
  | "Roughness" => some .dependent
  | _ => none

/-- `fn_color_space_correction` (`main.rs` 280-323), at the level of pixel
encodings: the conversions of the `image` crate (`into_rgb16` and friends)
produce an image of the corresponding encoding, so only the encoding of the
result is modelled.  `none` means "no change needed". -/
def colorCorrection (enforced : Option ColorType) (c : ColorType) : Option ColorType :=
  match enforced with
  | some e =>
    if c = e then none
    else
      match e with
      | .other => none
      | _ => some e
  | none =>
    match c with
    | .L8 | .La8 | .Rgb8 | .Rgba8 | .Rgb32F | .Rgba32F => none
    | .L16 | .La16 | .Rgb16 | .Rgba16 => some .Rgba8
    | .other => none

/-- The image encoding after the correction was applied (or skipped). -/
def applyCorrection (enforced : Option ColorType) (c : ColorType) : ColorType :=
  (colorCorrection enforced c).getD c

/-- A decoded source image as the packer sees it (`main.rs` 360-409): its
dimensions, its `into_luma8` view and its `into_rgb8` view — the codec
conversions are external collaborators, so the two views are abstract. -/
structure SrcImage where
  width : Nat
  height : Nat
  luma : Nat → Nat → Nat
  rgb : Nat → Nat → Nat × Nat × Nat

/-- A 3-channel 8-bit output image. -/
structure Rgb8Image where
  width : Nat
  height : Nat
  pix : Nat → Nat → Nat × Nat × Nat

/-- The classified failures of the channel packer (`bail!` at `main.rs` 371
and 405). -/
inductive PackError where
  | dimensionMismatch
  | incompleteMaterial
deriving DecidableEq

/-- The channel packer (`main.rs` 355-409): the match over
`[multi_process.get("Metalness"), multi_process.get("Roughness")]`, returning
the optional packed image plus the config lines the packer contributes. -/
def channelPack (metal rough : Option SrcImage) :
    Except PackError (Option Rgb8Image × List String) :=
  match metal, rough with
  | some m, some r =>
    if m.width ≠ r.width ∨ m.height ≠ r.height then
      .error .dimensionMismatch
    else
      .ok (some ⟨m.width, m.height, fun x y => (0, r.luma x y, m.luma x y)⟩,
        ["metal = 1.0", "rough = 1.0"])
  | none, some r =>
    .ok (some ⟨r.width, r.height, fun x y => (0, (r.rgb x y).2.1, 0)⟩, ["rough = 1.0"])
  | some _, none => .error .incompleteMaterial
  | none, none => .ok (none, [])

/-- The manifest serialization (`main.rs` 412-419): `sort_unstable`, join
with newline separators, then one trailing newline. -/
def serializeManifest (lines : List String) : String :=
  String.intercalate "\n" (lines.mergeSort fun a b => decide (a ≤ b)) ++ "\n"

/-- Rust `str::parse::<u8>` (`main.rs` 438): an optional leading `+` (a `-`
fails on an unsigned type, like any non-digit), then one or more ASCII
digits, value at most `255`. -/
def parseU8 (s : List Char) : Option Nat :=
  let digits := if s.head? = some '+' then s.tail else s
  if digits ≠ [] ∧ digits.all (·.isDigit) then
    let v := digits.foldl (fun a c => a * 10 + (c.toNat - 48)) 0
    if v ≤ 255 then some v else none
  else none

/-- The resolution-token test (`main.rs` 436-440): the match over the bytes
after the last underscore — first arm `[first, b'K']` guarded by
`first.is_ascii_digit()`, second arm `[bytes @ .., b'K']` testing whether
`bytes` parses as a `u8`. -/
def isResolutionToken (l : List Char) : Bool :=
  if l.length = 2 ∧ l.getLast? = some 'K' ∧ l.head?.any Char.isDigit then true
  else if l.getLast? = some 'K' then (parseU8 l.dropLast).isSome
  else false

/-- `str::rfind("_")`: position of the last underscore. -/
def rfindU : List Char → Option Nat
  | [] => none
  | c :: cs =>
    match rfindU cs with
    | some i => some (i + 1)
    | none => if c = '_' then some 0 else none

/-- `trim_end_matches(['-', '_'])` (`main.rs` 433 and 445). -/
def trimSep (l : List Char) : List Char :=
  (l.reverse.dropWhile fun c => c == '-' || c == '_').reverse

/-- The `.png`-suffix strip of the finalizer (`main.rs` 429-431). -/
def stripPngExt (l : List Char) : List Char :=
  if ['.', 'p', 'n', 'g'].isSuffixOf l then l.take (l.length - 4) else l

/-- The resolution-tag strip of the finalizer (`main.rs` 435-443). -/
def stripResolution (l : List Char) : List Char :=
  match rfindU l with
  | some i => if isResolutionToken (l.drop (i + 1)) then l.take i else l
  | none => l

/-- Steps (b)-(f) of the directory finalizer (`main.rs` 429-446), applied
after the truncation to the thumbnail-name length. -/
def finalizeTailL (l : List Char) : List Char :=
  (trimSep (stripResolution (trimSep (stripPngExt l)))).map Char.toLower

def finalizeTail (s : String) : String := ⟨finalizeTailL s.data⟩

/-- The whole directory finalizer (`main.rs` 427-446); `none` models the
panic of `split_at` when the thumbnail name is longer than the directory
name. -/
def finishedFolderName (dirName : String) (thumbLen : Nat) : Option String :=
  if thumbLen ≤ dirName.length then
    some (finalizeTail ⟨dirName.data.take thumbLen⟩)
  else none

/-- Following the words of claim C2: a resolution token is a single ASCII
digit followed by `K`, or a multi-digit number followed by `K`. -/
def specResolutionToken (l : List Char) : Bool :=
  match l.getLast? with
  | some 'K' => !l.dropLast.isEmpty && l.dropLast.all (·.isDigit)
  | _ => false

/-- A concrete 64 by 64 source image, for witnesses. -/
def imgA : SrcImage := ⟨64, 64, fun _ _ => 7, fun _ _ => (1, 2, 3)⟩

/-- A concrete 32 by 32 source image, for witnesses. -/
def imgB : SrcImage := ⟨32, 32, fun _ _ => 9, fun _ _ => (4, 5, 6)⟩

/-- Claim C5: with the required encoding of the Normal role (16-bit RGB
without alpha), the normalizer converts unless the image already matches
exactly; with no required encoding, the six broadly compatible encodings are
left unchanged, the four 16-bit encodings are converted to 8-bit RGBA, and
any other encoding is left unchanged; and the Normal role is the only
classifier output carrying a required encoding. -/
theorem color_normalizer_policy :
    (colorCorrection (some .Rgb16) .Rgb16 = none) ∧
    (∀ c : ColorType, c ≠ .Rgb16 → colorCorrection (some .Rgb16) c = some .Rgb16) ∧
    (∀ c : ColorType,
      c = .L8 ∨ c = .La8 ∨ c = .Rgb8 ∨ c = .Rgba8 ∨ c = .Rgb32F ∨ c = .Rgba32F →
      colorCorrection none c = none) ∧
    (∀ c : ColorType, c = .L16 ∨ c = .La16 ∨ c = .Rgb16 ∨ c = .Rgba16 →
      colorCorrection none c = some .Rgba8) ∧
    (colorCorrection none .other = none) ∧
    (∀ s r lines col, fromPostfixPath s = some (.single r lines col) → col ≠ none →
      s = "NormalGL" ∧ col = some ColorType.Rgb16) := by
  refine ⟨rfl, ?_, ?_, ?_, rfl, ?_⟩
  · intro c h
    cases c <;> first | decide | exact absurd rfl h
  · intro c h
    rcases h with h | h | h | h | h | h <;> subst h <;> decide
  · intro c h
    rcases h with h | h | h | h <;> subst h <;> decide
  · intro s r lines col h hcol
    simp only [fromPostfixPath] at h
    split at h <;> simp_all

/-- Witness for `color_normalizer_policy`: an 8-bit RGB image is converted
for the Normal role, a 16-bit grayscale image is converted to 8-bit RGBA by
default, and the `NormalGL` suffix is the one carrying a required encoding. -/
theorem color_normalizer_policy_witness :
    colorCorrection (some .Rgb16) .Rgb8 = some .Rgb16 ∧
    colorCorrection none .L16 = some .Rgba8 ∧
    ("NormalGL" : String) = "NormalGL" ∧ some ColorType.Rgb16 = some ColorType.Rgb16 :=
  ⟨color_normalizer_policy.2.1 .Rgb8 (by decide),
   color_normalizer_policy.2.2.2.1 .L16 (Or.inl rfl),
   color_normalizer_policy.2.2.2.2.2 "NormalGL" "normal" ["normal = \"OpenGL\""]
     (some .Rgb16) rfl (by decide)⟩

/-- Claim C8: the color normalizer is idempotent — re-normalizing the result
of a normalization (or an image the policy already accepts) is a no-op. -/
theorem color_normalizer_idempotent (enforced : Option ColorType) (c : ColorType) :
    colorCorrection enforced (applyCorrection enforced c) = none := by
  cases enforced with
  | none => cases c <;> rfl
  | some e => cases e <;> cases c <;> rfl

/-- Claim C3: with both Metalness and Roughness buffered and of equal
dimensions, the packer emits a 3-channel 8-bit image of those dimensions
whose pixels are (0, roughness, metalness); with Roughness alone, it emits
the roughness image decoded as 3-channel 8-bit with the first and third
channels zeroed and the green channel kept. -/
theorem channel_packer_images (m r : SrcImage)
    (hw : m.width = r.width) (hh : m.height = r.height) :
    channelPack (some m) (some r) =
      .ok (some ⟨m.width, m.height, fun x y => (0, r.luma x y, m.luma x y)⟩,
        ["metal = 1.0", "rough = 1.0"]) ∧
    ∀ r2 : SrcImage, channelPack none (some r2) =
      .ok (some ⟨r2.width, r2.height, fun x y => (0, (r2.rgb x y).2.1, 0)⟩,
        ["rough = 1.0"]) := by
  constructor
  · simp [channelPack, hw, hh]
  · intro r2
    rfl

/-- Witness for `channel_packer_images` at concrete images. -/
theorem channel_packer_images_witness :
    channelPack (some imgA) (some imgA) =
      .ok (some ⟨imgA.width, imgA.height, fun x y => (0, imgA.luma x y, imgA.luma x y)⟩,
        ["metal = 1.0", "rough = 1.0"]) ∧
    channelPack none (some imgB) =
      .ok (some ⟨imgB.width, imgB.height, fun x y => (0, (imgB.rgb x y).2.1, 0)⟩,
        ["rough = 1.0"]) :=
  ⟨(channel_packer_images imgA imgA rfl rfl).1,
   (channel_packer_images imgA imgA rfl rfl).2 imgB⟩

/-- Claim C4: a buffered Metalness without Roughness is a classified error,
and a buffered pair of differing dimensions is a dimension-mismatch error;
in both failure cases no packed output is produced. -/
theorem channel_packer_failures (m r : SrcImage)
    (hne : m.width ≠ r.width ∨ m.height ≠ r.height) :
    channelPack (some m) none = .error .incompleteMaterial ∧
    channelPack (some m) (some r) = .error .dimensionMismatch ∧
    ∀ out, channelPack (some m) none ≠ .ok out ∧
      channelPack (some m) (some r) ≠ .ok out := by
  have hdim : channelPack (some m) (some r) = .error .dimensionMismatch := by
    simp only [channelPack]
    rw [if_pos hne]
  refine ⟨rfl, hdim, ?_⟩
  intro out
  constructor
  · intro hbad
    simp [channelPack] at hbad
  · intro hbad
    rw [hdim] at hbad
    exact Except.noConfusion hbad

/-- Witness for `channel_packer_failures` at the spec's 64 by 64 versus
32 by 32 example. -/
theorem channel_packer_failures_witness :
    channelPack (some imgA) none = .error .incompleteMaterial ∧
    channelPack (some imgA) (some imgB) = .error .dimensionMismatch :=
  ⟨(channel_packer_failures imgA imgB (Or.inl (by decide))).1,
   (channel_packer_failures imgA imgB (Or.inl (by decide))).2.1⟩

/-- Claim C9: a valid directory whose eligible `.png` files leave exactly one
candidate after thumbnail removal makes suffix extraction panic — the shared
prefix is computed over full file names including the extension, so it is
longer than the remaining file's stem and the `split_at` is out of bounds. -/
theorem suffix_extraction_panics :
    (scanDir ["Tex.png", "Tex_Color.png"]).filePaths.eraseIdx
        (scanDir ["Tex.png", "Tex_Color.png"]).shortestIdx = ["Tex_Color.png"] ∧
    sharedLcp ["Tex_Color.png"] = some "Tex_Color.png" ∧
    (fileStem "Tex_Color.png").length < ("Tex_Color.png" : String).length ∧
    stemSuffix "Tex_Color.png" "Tex_Color.png" = none := by
  refine ⟨by decide, by decide, by decide, by decide⟩

/-- Counterexample to claim C1 as stated: with a single remaining file the
shared prefix is the full file name (extension included), which differs from
the pairwise reduction over stems. -/
theorem sharedLcp_ne_stem_reduction :
    sharedLcp ["Tex_Color.png"] = some "Tex_Color.png" ∧
    stemLcpSpec ["Tex_Color.png"] = some "Tex_Color" ∧
    sharedLcp ["Tex_Color.png"] ≠ stemLcpSpec ["Tex_Color.png"] := by
  refine ⟨by decide, by decide, by decide⟩

/-- Counterexample to claim C2 as stated: `300K` is a multi-digit resolution
token in the claim's sense, yet the finalizer leaves `Rock_300K` unchanged
(beyond lower-casing) because `300` does not parse as a `u8`. -/
theorem finalizer_keeps_300K :
    specResolutionToken "300K".data = true ∧
    trimSep (stripPngExt "Rock_300K".data) = "Rock".data ++ '_' :: "300K".data ∧
    finalizeTail "Rock_300K" = "rock_300k" ∧
    finalizeTail "Rock_300K" ≠ "rock" := by
  refine ⟨by decide, by decide, by decide, by decide⟩

/-- Claim C6: the serialized manifest is the lexicographically sorted line
list joined by newline separators with a trailing newline, so any two
insertion orders of the same line set serialize to byte-identical output. -/
theorem manifest_deterministic (l₁ l₂ : List String) (hp : l₁.Perm l₂) :
    (l₁.mergeSort fun a b => decide (a ≤ b)).Sorted (· ≤ ·) ∧
    (l₁.mergeSort fun a b => decide (a ≤ b)).Perm l₁ ∧
    serializeManifest l₁ =
      String.intercalate "\n" (l₁.mergeSort fun a b => decide (a ≤ b)) ++ "\n" ∧
    serializeManifest l₁ = serializeManifest l₂ := by
  have hs₁ := List.sorted_mergeSort' (α := String) l₁
  have hs₂ := List.sorted_mergeSort' (α := String) l₂
  have hperm : (l₁.mergeSort fun a b => decide (a ≤ b)).Perm
      (l₂.mergeSort fun a b => decide (a ≤ b)) :=
    ((List.mergeSort_perm l₁ _).trans hp).trans (List.mergeSort_perm l₂ _).symm
  have heq := List.eq_of_perm_of_sorted hperm hs₁ hs₂
  exact ⟨hs₁, List.mergeSort_perm l₁ _, rfl,
    by rw [serializeManifest, serializeManifest, heq]⟩

/-- Witness for `manifest_deterministic`: two insertion orders of the same
two manifest lines serialize identically. -/
theorem manifest_deterministic_witness :
    serializeManifest ["tile = true", "rough = 1.0"] =
      serializeManifest ["rough = 1.0", "tile = true"] :=
  (manifest_deterministic ["tile = true", "rough = 1.0"]
    ["rough = 1.0", "tile = true"]
    (List.Perm.swap "rough = 1.0" "tile = true" [])).2.2.2

theorem dropWhile_append_all {p : Char → Bool} (x l : List Char)
    (hx : ∀ c ∈ x, p c = true) :
    (x ++ l).dropWhile p = l.dropWhile p := by
  induction x with
  | nil => simp
  | cons c cs ih =>
    have hc : p c = true := hx c (List.mem_cons_self c cs)
    simp [List.dropWhile_cons, hc, ih fun d hd => hx d (List.mem_cons_of_mem c hd)]

theorem takeWhile_append_all {p : Char → Bool} (x l : List Char)
    (hx : ∀ c ∈ x, p c = true) :
    (x ++ l).takeWhile p = x ++ l.takeWhile p := by
  induction x with
  | nil => simp
  | cons c cs ih =>
    have hc : p c = true := hx c (List.mem_cons_self c cs)
    simp [List.takeWhile_cons, hc, ih fun d hd => hx d (List.mem_cons_of_mem c hd)]

/-- Appending a nonempty dot-free chunk either leaves no extension or makes
the extension end in that chunk. -/
theorem extOfL_append_no_dot (x l : List Char)
    (hdot : ∀ c ∈ x, (c != '.') = true) :
    extOfL (l ++ x) = none ∨ ∃ y, extOfL (l ++ x) = some (y ++ x) := by
  have hd := dropWhile_append_all x.reverse l.reverse
    fun c hc => hdot c (List.mem_reverse.mp hc)
  have ht := takeWhile_append_all x.reverse l.reverse
    fun c hc => hdot c (List.mem_reverse.mp hc)
  cases hres : l.reverse.dropWhile (fun c => c != '.') with
  | nil =>
    left
    simp [extOfL, List.reverse_append, hd, hres]
  | cons a rest =>
    cases rest with
    | nil =>
      left
      simp [extOfL, List.reverse_append, hd, hres]
    | cons b rest2 =>
      right
      refine ⟨(l.reverse.takeWhile fun c => c != '.').reverse, ?_⟩
      simp [extOfL, List.reverse_append, hd, ht, hres]

/-- An eligible file name can never equal `prefix + "Roughness"`. -/
theorem correct_ext_ne_roughness (pre n : String) (h : correctExtension n = true) :
    n ≠ pre ++ "Roughness" := by
  intro heq
  subst heq
  rw [correctExtension] at h
  have hext : extOf (pre ++ "Roughness") = some "png" := by simpa using h
  rw [extOf, String.data_append] at hext
  rcases extOfL_append_no_dot "Roughness".data pre.data (by decide) with hc | ⟨y, hc⟩
  · rw [hc] at hext
    exact Option.noConfusion hext
  · rw [hc] at hext
    have hmk : (⟨y ++ "Roughness".data⟩ : String) = "png" := by simpa using hext
    have hdata : y ++ "Roughness".data = "png".data := congrArg String.data hmk
    have hlen := congrArg List.length hdata
    rw [List.length_append] at hlen
    have h9 : ("Roughness".data).length = 9 := by decide
    have h3 : ("png".data).length = 3 := by decide
    omega

/-- Claim C10: the roughness-to-specular branch is unreachable — every
remaining eligible file name ends in `.png`, while the searched name is the
shared prefix followed by `Roughness` with no extension, so the equality
test never succeeds and no `specular.png` output is ever produced. -/
theorem roughness_search_unreachable (pre : String) (names : List String)
    (h : ∀ n ∈ names, correctExtension n = true) :
    findRoughness pre names = none := by
  rw [findRoughness, List.find?_eq_none]
  intro n hn hbeq
  exact correct_ext_ne_roughness pre n (h n hn) (eq_of_beq hbeq)

/-- Witness for `roughness_search_unreachable` on a concrete directory that
does contain a Roughness map. -/
theorem roughness_search_unreachable_witness :
    findRoughness "Tex_" ["Tex_Color.png", "Tex_Roughness.png"] = none :=
  roughness_search_unreachable "Tex_" ["Tex_Color.png", "Tex_Roughness.png"] (by decide)

theorem lcpL_pre_left (a : List Char) : ∀ b : List Char, ∃ t, lcpL a b ++ t = a := by
  induction a with
  | nil => intro b; cases b <;> exact ⟨[], rfl⟩
  | cons x xs ih =>
    intro b
    cases b with
    | nil => exact ⟨x :: xs, rfl⟩
    | cons y ys =>
      by_cases hxy : x = y
      · obtain ⟨t, ht⟩ := ih ys
        subst hxy
        exact ⟨t, by simp [lcpL, ht]⟩
      · exact ⟨x :: xs, by simp [lcpL, hxy]⟩

theorem lcpL_pre_right (a : List Char) : ∀ b : List Char, ∃ t, lcpL a b ++ t = b := by
  induction a with
  | nil => intro b; cases b <;> exact ⟨_, rfl⟩
  | cons x xs ih =>
    intro b
    cases b with
    | nil => exact ⟨[], rfl⟩
    | cons y ys =>
      by_cases hxy : x = y
      · obtain ⟨t, ht⟩ := ih ys
        subst hxy
        exact ⟨t, by simp [lcpL, ht]⟩
      · exact ⟨y :: ys, by simp [lcpL, hxy]⟩

theorem lcpL_greatest (c : List Char) : ∀ a b : List Char,
    (∃ t, c ++ t = a) → (∃ t, c ++ t = b) → ∃ t, c ++ t = lcpL a b := by
  induction c with
  | nil => intro a b _ _; exact ⟨lcpL a b, rfl⟩
  | cons z zs ih =>
    intro a b h1 h2
    obtain ⟨t1, rfl⟩ := h1
    obtain ⟨t2, rfl⟩ := h2
    obtain ⟨t, ht⟩ := ih (zs ++ t1) (zs ++ t2) ⟨t1, rfl⟩ ⟨t2, rfl⟩
    exact ⟨t, by simp [lcpL, ht]⟩

theorem chunk_pre_trans {a b c : List Char} (h1 : ∃ t, a ++ t = b)
    (h2 : ∃ t, b ++ t = c) : ∃ t, a ++ t = c := by
  obtain ⟨t1, rfl⟩ := h1
  obtain ⟨t2, rfl⟩ := h2
  exact ⟨t1 ++ t2, by rw [List.append_assoc]⟩

theorem foldl_commonPref_pre (ns : List String) : ∀ acc : String,
    (∃ t, (ns.foldl commonPref acc).data ++ t = acc.data) ∧
    ∀ n ∈ ns, ∃ t, (ns.foldl commonPref acc).data ++ t = n.data := by
  induction ns with
  | nil =>
    intro acc
    exact ⟨⟨[], by simp⟩, by simp⟩
  | cons n ns ih =>
    intro acc
    rw [List.foldl_cons]
    obtain ⟨hacc, hall⟩ := ih (commonPref acc n)
    have hpre₁ : ∃ t, (commonPref acc n).data ++ t = acc.data := lcpL_pre_left acc.data n.data
    have hpre₂ : ∃ t, (commonPref acc n).data ++ t = n.data := lcpL_pre_right acc.data n.data
    refine ⟨chunk_pre_trans hacc hpre₁, ?_⟩
    intro m hm
    rcases List.mem_cons.mp hm with rfl | hm
    · exact chunk_pre_trans hacc hpre₂
    · exact hall m hm

theorem foldl_commonPref_greatest (ns : List String) : ∀ (acc : String) (q : List Char),
    (∃ t, q ++ t = acc.data) → (∀ n ∈ ns, ∃ t, q ++ t = n.data) →
    ∃ t, q ++ t = (ns.foldl commonPref acc).data := by
  induction ns with
  | nil =>
    intro acc q hacc _
    simpa using hacc
  | cons n ns ih =>
    intro acc q hacc hall
    rw [List.foldl_cons]
    refine ih (commonPref acc n) q ?_ fun m hm => hall m (List.mem_cons_of_mem n hm)
    exact lcpL_greatest q acc.data n.data hacc (hall n (List.mem_cons_self n ns))

/-- Claim C1 (amended): the shared prefix used for suffix extraction is the
pairwise longest-common-prefix reduction over the remaining files' full file
names (extension included) — a common leading substring of every remaining
name, and the longest such; each file's suffix is its stem minus the first
prefix-length characters whenever the prefix is no longer than the stem. -/
theorem sharedLcp_characterization (names : List String) (p : String)
    (h : sharedLcp names = some p) :
    (∀ n ∈ names, ∃ t, p.data ++ t = n.data) ∧
    (∀ q : String, (∀ n ∈ names, ∃ t, q.data ++ t = n.data) → q.length ≤ p.length) ∧
    (∀ n ∈ names, p.length ≤ (fileStem n).length →
      stemSuffix p n = some ⟨(fileStem n).data.drop p.length⟩) := by
  cases names with
  | nil => simp [sharedLcp] at h
  | cons first rest =>
    simp only [sharedLcp, List.head?, Option.some.injEq] at h
    subst h
    refine ⟨(foldl_commonPref_pre (first :: rest) first).2, ?_, ?_⟩
    · intro q hq
      obtain ⟨t, ht⟩ := foldl_commonPref_greatest (first :: rest) first q.data
        (hq first (List.mem_cons_self first rest)) hq
      have hlen := congrArg List.length ht
      rw [List.length_append] at hlen
      show q.data.length ≤ ((first :: rest).foldl commonPref first).data.length
      omega
    · intro n hn hlen
      rw [stemSuffix, if_pos hlen]

/-- Witness for `sharedLcp_characterization`: for the spec's example
directory the shared prefix is `Tex_` and the Color file's suffix is
`Color`. -/
theorem sharedLcp_characterization_witness :
    (∃ t, ("Tex_" : String).data ++ t = ("Tex_Color.png" : String).data) ∧
    stemSuffix "Tex_" "Tex_Color.png" = some "Color" := by
  have h := sharedLcp_characterization ["Tex_Color.png", "Tex_NormalGL.png"] "Tex_"
    (by decide)
  refine ⟨h.1 "Tex_Color.png" (by simp), ?_⟩
  have h2 := h.2.2 "Tex_Color.png" (by simp) (by decide)
  exact h2.trans (by decide)

theorem parseU8_digits {d : List Char} {v : Nat} (h : parseU8 d = some v) :
    (if d.head? = some '+' then d.tail else d) ≠ [] ∧
    (if d.head? = some '+' then d.tail else d).all (·.isDigit) = true := by
  simp only [parseU8] at h
  by_cases hc : (if d.head? = some '+' then d.tail else d) ≠ [] ∧
      (if d.head? = some '+' then d.tail else d).all (·.isDigit) = true
  · exact hc
  · rw [if_neg hc] at h
    exact Option.noConfusion h

theorem parseU8_no_underscore {d : List Char} {v : Nat} (h : parseU8 d = some v) :
    '_' ∉ d := by
  obtain ⟨hne, hall⟩ := parseU8_digits h
  intro hmem
  by_cases hp : d.head? = some '+'
  · rw [if_pos hp] at hall
    cases d with
    | nil => simp at hmem
    | cons x xs =>
      have hx : x = '+' := by simpa using hp
      rcases List.mem_cons.mp hmem with heq | hmem2
      · exact absurd (heq.trans hx) (by decide)
      · exact absurd (List.all_eq_true.mp hall '_' hmem2) (by decide)
  · rw [if_neg hp] at hall
    exact absurd (List.all_eq_true.mp hall '_' hmem) (by decide)

theorem parseU8_single {c : Char} (h : c.isDigit = true) :
    parseU8 [c] = some (c.toNat - 48) := by
  have hd : 48 ≤ c.toNat ∧ c.toNat ≤ 57 := by
    simp [Char.isDigit] at h
    exact h
  have hplus : ¬ (([c] : List Char).head? = some '+') := by
    simp only [List.head?_cons, Option.some.injEq]
    intro hc
    rw [hc] at h
    exact absurd h (by decide)
  simp only [parseU8]
  rw [if_neg hplus]
  rw [if_pos ⟨by simp, by simp [h]⟩]
  have hfold : List.foldl (fun a c => a * 10 + (c.toNat - 48)) 0 [c] = c.toNat - 48 := by
    simp
  rw [hfold, if_pos (by omega)]

theorem parseU8_token {d : List Char} {v : Nat} (h : parseU8 d = some v) :
    isResolutionToken (d ++ ['K']) = true := by
  rw [isResolutionToken]
  by_cases h1 : (d ++ ['K']).length = 2 ∧ (d ++ ['K']).getLast? = some 'K' ∧
      (d ++ ['K']).head?.any Char.isDigit = true
  · rw [if_pos h1]
  · rw [if_neg h1, if_pos (List.getLast?_concat d), List.dropLast_concat, h]
    rfl

theorem token_decomp {r : List Char} (h : isResolutionToken r = true) :
    ∃ d v, r = d ++ ['K'] ∧ parseU8 d = some v := by
  rw [isResolutionToken] at h
  by_cases h1 : r.length = 2 ∧ r.getLast? = some 'K' ∧ r.head?.any Char.isDigit = true
  · obtain ⟨hl, hk, hdig⟩ := h1
    obtain ⟨a, b, rfl⟩ := List.length_eq_two.mp hl
    have hb : b = 'K' := by simpa using hk
    have ha : a.isDigit = true := by simpa using hdig
    subst hb
    exact ⟨[a], a.toNat - 48, rfl, parseU8_single ha⟩
  · rw [if_neg h1] at h
    by_cases h2 : r.getLast? = some 'K'
    · rw [if_pos h2] at h
      obtain ⟨v, hv⟩ := Option.isSome_iff_exists.mp h
      refine ⟨r.dropLast, v, ?_, hv⟩
      have hne : r ≠ [] := by
        intro hr
        rw [hr] at h2
        simp at h2
      have hgl : r.getLast hne = 'K' := by
        have hq := List.getLast?_eq_getLast r hne
        rw [hq] at h2
        simpa using h2
      conv_lhs => rw [← List.dropLast_append_getLast hne]
      rw [hgl]
    · rw [if_neg h2] at h
      exact absurd h (by simp)

theorem rfindU_eq_none {l : List Char} (h : rfindU l = none) : '_' ∉ l := by
  induction l with
  | nil => simp
  | cons c cs ih =>
    rw [rfindU] at h
    cases hcs : rfindU cs with
    | some i =>
      rw [hcs] at h
      simp at h
    | none =>
      rw [hcs] at h
      by_cases hc : c = '_'
      · simp [hc] at h
      · intro hmem
        rcases List.mem_cons.mp hmem with heq | hmem2
        · exact hc heq.symm
        · exact ih hcs hmem2

theorem rfindU_none_of_not_mem {l : List Char} (h : '_' ∉ l) : rfindU l = none := by
  induction l with
  | nil => rfl
  | cons c cs ih =>
    rw [rfindU]
    have hcs : rfindU cs = none := ih fun hm => h (List.mem_cons_of_mem c hm)
    have hc : ¬ c = '_' := fun heq => h (by rw [← heq]; exact List.mem_cons_self c cs)
    rw [hcs]
    simp [hc]

theorem rfindU_last (u r : List Char) (hr : '_' ∉ r) :
    rfindU (u ++ '_' :: r) = some u.length := by
  induction u with
  | nil =>
    rw [List.nil_append, rfindU, rfindU_none_of_not_mem hr]
    simp
  | cons x xs ih =>
    rw [List.cons_append, rfindU, ih]
    simp

theorem rfindU_decomp {l : List Char} {i : Nat} (h : rfindU l = some i) :
    ∃ u r, l = u ++ '_' :: r ∧ u.length = i ∧ '_' ∉ r := by
  induction l generalizing i with
  | nil => simp [rfindU] at h
  | cons c cs ih =>
    rw [rfindU] at h
    cases hcs : rfindU cs with
    | some j =>
      rw [hcs] at h
      have hij : j + 1 = i := by simpa using h
      obtain ⟨u, r, rfl, hulen, hnr⟩ := ih hcs
      exact ⟨c :: u, r, rfl, by simp [List.length_cons, hulen, hij], hnr⟩
    | none =>
      rw [hcs] at h
      by_cases hc : c = '_'
      · subst hc
        have h0 : some 0 = some i := by simpa using h
        have h0' : i = 0 := by simpa using h0.symm
        exact ⟨[], cs, rfl, by simp [h0'], rfindU_eq_none hcs⟩
      · simp [hc] at h

theorem dropWhile_idem {p : Char → Bool} {l : List Char} :
    (l.dropWhile p).dropWhile p = l.dropWhile p := by
  induction l with
  | nil => rfl
  | cons c cs ih =>
    rw [List.dropWhile_cons]
    by_cases hc : p c = true
    · rw [if_pos hc]
      exact ih
    · rw [if_neg hc, List.dropWhile_cons, if_neg hc]

theorem trimSep_idem (l : List Char) : trimSep (trimSep l) = trimSep l := by
  simp [trimSep, dropWhile_idem]

/-- Claim C2 (amended): after truncation, `.png` stripping and separator
trimming, the finalizer strips a trailing underscore-plus-token segment
exactly when the token is a `u8`-parsable number (one or more ASCII digits
with an optional leading `+`, of value at most 255) followed by `K`; a name
with no such trailing token keeps its tail, beyond separator trimming and
ASCII lower-casing. -/
theorem finalizer_token_strip (s : String) :
    (∀ u d v, parseU8 d = some v →
        trimSep (stripPngExt s.data) = u ++ '_' :: (d ++ ['K']) →
        finalizeTail s = ⟨(trimSep u).map Char.toLower⟩) ∧
    ((∀ u d v, parseU8 d = some v →
        trimSep (stripPngExt s.data) ≠ u ++ '_' :: (d ++ ['K'])) →
      finalizeTail s = ⟨(trimSep (stripPngExt s.data)).map Char.toLower⟩) := by
  constructor
  · intro u d v hp ht
    rw [finalizeTail, finalizeTailL, ht]
    have hmem : '_' ∉ d ++ ['K'] := by
      intro hm
      rcases List.mem_append.mp hm with hm | hm
      · exact parseU8_no_underscore hp hm
      · simp at hm
    simp only [stripResolution, rfindU_last u (d ++ ['K']) hmem]
    have hdrop : (u ++ '_' :: (d ++ ['K'])).drop (u.length + 1) = d ++ ['K'] := by
      have h1 : u ++ '_' :: (d ++ ['K']) = (u ++ ['_']) ++ (d ++ ['K']) := by simp
      have h2 : u.length + 1 = (u ++ ['_']).length := by simp
      rw [h1, h2, List.drop_left]
    have hcond : isResolutionToken ((u ++ '_' :: (d ++ ['K'])).drop (u.length + 1)) = true := by
      rw [hdrop]
      exact parseU8_token hp
    rw [if_pos hcond, List.take_left]
  · intro hno
    rw [finalizeTail, finalizeTailL]
    have hsr : stripResolution (trimSep (stripPngExt s.data)) =
        trimSep (stripPngExt s.data) := by
      cases hr : rfindU (trimSep (stripPngExt s.data)) with
      | none => simp only [stripResolution, hr]
      | some i =>
        obtain ⟨u, r, hdec, hulen, hnr⟩ := rfindU_decomp hr
        by_cases htok : isResolutionToken ((trimSep (stripPngExt s.data)).drop (i + 1)) = true
        · exfalso
          have hdrop : (trimSep (stripPngExt s.data)).drop (i + 1) = r := by
            rw [hdec, ← hulen]
            have h1 : u ++ '_' :: r = (u ++ ['_']) ++ r := by simp
            have h2 : u.length + 1 = (u ++ ['_']).length := by simp
            rw [h1, h2, List.drop_left]
          rw [hdrop] at htok
          obtain ⟨d, v, hrd, hpd⟩ := token_decomp htok
          exact hno u d v hpd (by rw [hdec, hrd])
        · simp only [stripResolution, hr]
          rw [if_neg htok]
    rw [hsr, trimSep_idem]

/-- Witness for `finalizer_token_strip`: `Tex_2K` is stripped to `tex`. -/
theorem finalizer_token_strip_witness : finalizeTail "Tex_2K" = "tex" := by
  have h := (finalizer_token_strip "Tex_2K").1 "Tex".data "2".data 2 (by decide) (by decide)
  exact h.trans (by decide)

theorem thumbFold_spec (ns : List String) : ∀ c i l : Nat,
    (ns.foldl thumbStep (c, i, l)).1 = c + ns.length ∧
    (((ns.foldl thumbStep (c, i, l)).2.1 = i ∧ (ns.foldl thumbStep (c, i, l)).2.2 = l ∧
        ∀ j (hj : j < ns.length), l ≤ (ns.get ⟨j, hj⟩).length) ∨
      ∃ k, ∃ hk : k < ns.length,
        (ns.foldl thumbStep (c, i, l)).2.1 = c + k ∧
        (ns.foldl thumbStep (c, i, l)).2.2 = (ns.get ⟨k, hk⟩).length ∧
        (ns.get ⟨k, hk⟩).length < l ∧
        (∀ j (hj : j < ns.length), (ns.get ⟨k, hk⟩).length ≤ (ns.get ⟨j, hj⟩).length) ∧
        ∀ j (hj : j < ns.length), j < k →
          (ns.get ⟨k, hk⟩).length < (ns.get ⟨j, hj⟩).length) := by
  induction ns with
  | nil =>
    intro c i l
    refine ⟨by simp, Or.inl ⟨rfl, rfl, ?_⟩⟩
    intro j hj
    simp at hj
  | cons n ns ih =>
    intro c i l
    rw [List.foldl_cons]
    by_cases hn : n.length < l
    · have hstep : thumbStep (c, i, l) n = (c + 1, c, n.length) := by
        simp [thumbStep, hn]
      rw [hstep]
      obtain ⟨h1, h2⟩ := ih (c + 1) c n.length
      refine ⟨by rw [h1]; simp [List.length_cons]; omega, Or.inr ?_⟩
      rcases h2 with ⟨hi, hl, hall⟩ | ⟨k, hk, hi, hl, hlt, hall, hfirst⟩
      · refine ⟨0, by simp, by rw [hi]; omega, by rw [hl]; rfl, hn, ?_, ?_⟩
        · intro j hj
          cases j with
          | zero => exact le_refl _
          | succ j =>
            simp only [List.length_cons] at hj
            exact hall j (Nat.lt_of_succ_lt_succ hj)
        · intro j hj hj0
          exact absurd hj0 (Nat.not_lt_zero j)
      · refine ⟨k + 1, by simp only [List.length_cons]; omega, by rw [hi]; omega, hl,
          lt_trans hlt hn, ?_, ?_⟩
        · intro j hj
          cases j with
          | zero => exact le_of_lt hlt
          | succ j =>
            simp only [List.length_cons] at hj
            exact hall j (Nat.lt_of_succ_lt_succ hj)
        · intro j hj hjk
          cases j with
          | zero => exact hlt
          | succ j =>
            simp only [List.length_cons] at hj
            exact hfirst j (Nat.lt_of_succ_lt_succ hj) (Nat.lt_of_succ_lt_succ hjk)
    · have hstep : thumbStep (c, i, l) n = (c + 1, i, l) := by
        simp [thumbStep, hn]
      rw [hstep]
      obtain ⟨h1, h2⟩ := ih (c + 1) i l
      refine ⟨by rw [h1]; simp [List.length_cons]; omega, ?_⟩
      rcases h2 with ⟨hi, hl, hall⟩ | ⟨k, hk, hi, hl, hlt, hall, hfirst⟩
      · refine Or.inl ⟨hi, hl, ?_⟩
        intro j hj
        cases j with
        | zero => exact Nat.le_of_not_lt hn
        | succ j =>
          simp only [List.length_cons] at hj
          exact hall j (Nat.lt_of_succ_lt_succ hj)
      · refine Or.inr ⟨k + 1, by simp only [List.length_cons]; omega, by rw [hi]; omega, hl,
          hlt, ?_, ?_⟩
        · intro j hj
          cases j with
          | zero => exact le_trans (le_of_lt hlt) (Nat.le_of_not_lt hn)
          | succ j =>
            simp only [List.length_cons] at hj
            exact hall j (Nat.lt_of_succ_lt_succ hj)
        · intro j hj hjk
          cases j with
          | zero => exact lt_of_lt_of_le hlt (Nat.le_of_not_lt hn)
          | succ j =>
            simp only [List.length_cons] at hj
            exact hfirst j (Nat.lt_of_succ_lt_succ hj) (Nat.lt_of_succ_lt_succ hjk)

theorem scanDir_split (names : List String) : ∀ (fps dels : List String) (i l : Nat),
    names.foldl scanStep ⟨fps, dels, i, l⟩ =
      ⟨fps ++ names.filter correctExtension,
        dels ++ names.filter (fun n => !correctExtension n),
        ((names.filter correctExtension).foldl thumbStep (fps.length, i, l)).2.1,
        ((names.filter correctExtension).foldl thumbStep (fps.length, i, l)).2.2⟩ := by
  induction names with
  | nil =>
    intro fps dels i l
    simp
  | cons n ns ih =>
    intro fps dels i l
    rw [List.foldl_cons]
    by_cases hce : correctExtension n = true
    · have hf1 : (n :: ns).filter correctExtension = n :: ns.filter correctExtension := by
        simp [List.filter_cons, hce]
      have hf2 : (n :: ns).filter (fun m => !correctExtension m) =
          ns.filter (fun m => !correctExtension m) := by
        simp [List.filter_cons, hce]
      by_cases hn : n.length < l
      · have hstep : scanStep ⟨fps, dels, i, l⟩ n =
            ⟨fps ++ [n], dels, fps.length, n.length⟩ := by
          simp [scanStep, hce, hn]
        have hts : thumbStep (fps.length, i, l) n = (fps.length + 1, fps.length, n.length) := by
          simp [thumbStep, hn]
        rw [hstep, ih, hf1, hf2, List.foldl_cons, hts]
        simp [List.length_append]
      · have hstep : scanStep ⟨fps, dels, i, l⟩ n = ⟨fps ++ [n], dels, i, l⟩ := by
          simp [scanStep, hce, hn]
        have hts : thumbStep (fps.length, i, l) n = (fps.length + 1, i, l) := by
          simp [thumbStep, hn]
        rw [hstep, ih, hf1, hf2, List.foldl_cons, hts]
        simp [List.length_append]
    · have hf1 : (n :: ns).filter correctExtension = ns.filter correctExtension := by
        simp [List.filter_cons, hce]
      have hf2 : (n :: ns).filter (fun m => !correctExtension m) =
          n :: ns.filter (fun m => !correctExtension m) := by
        simp [List.filter_cons, hce]
      have hstep : scanStep ⟨fps, dels, i, l⟩ n = ⟨fps, dels ++ [n], i, l⟩ := by
        simp [scanStep, hce]
      rw [hstep, ih, hf1, hf2]
      simp

/-- Claim C7: whenever the eligible file list is non-empty, the recorded
thumbnail index points at the eligible file with the shortest name, ties are
broken by the first occurrence in directory-iteration order, and removing it
excludes exactly one file. -/
theorem thumbnail_selection (names : List String)
    (hne : names.filter correctExtension ≠ [])
    (hlen : ∀ n ∈ names, n.length < usizeMax) :
    (scanDir names).filePaths = names.filter correctExtension ∧
    ∃ hk : (scanDir names).shortestIdx < (names.filter correctExtension).length,
      (∀ j (hj : j < (names.filter correctExtension).length),
        ((names.filter correctExtension).get ⟨(scanDir names).shortestIdx, hk⟩).length ≤
          ((names.filter correctExtension).get ⟨j, hj⟩).length) ∧
      (∀ j (hj : j < (names.filter correctExtension).length),
        j < (scanDir names).shortestIdx →
        ((names.filter correctExtension).get ⟨(scanDir names).shortestIdx, hk⟩).length <
          ((names.filter correctExtension).get ⟨j, hj⟩).length) ∧
      ((scanDir names).filePaths.eraseIdx (scanDir names).shortestIdx).length + 1 =
        (names.filter correctExtension).length := by
  have hsplit := scanDir_split names [] [] 0 usizeMax
  have hfp : (scanDir names).filePaths = names.filter correctExtension := by
    rw [scanDir, hsplit]
    rfl
  have hidx : (scanDir names).shortestIdx =
      ((names.filter correctExtension).foldl thumbStep (0, 0, usizeMax)).2.1 := by
    rw [scanDir, hsplit]
    rfl
  obtain ⟨h1, h2⟩ := thumbFold_spec (names.filter correctExtension) 0 0 usizeMax
  rcases h2 with ⟨hi, hl, hall⟩ | ⟨k, hk, hi, hl, hlt, hall, hfirst⟩
  · exfalso
    obtain ⟨e, he⟩ := List.exists_mem_of_ne_nil _ hne
    obtain ⟨⟨j, hj⟩, hget⟩ := List.mem_iff_get.mp he
    have hje := hall j hj
    rw [hget] at hje
    have hxl := hlen e (List.mem_of_mem_filter he)
    rw [usizeMax] at hje hxl
    omega
  · have hidx' : (scanDir names).shortestIdx = k := by
      rw [hidx, hi]
      omega
    rw [hfp, hidx']
    refine ⟨rfl, hk, hall, hfirst, ?_⟩
    rw [List.length_eraseIdx, if_pos hk]
    omega

/-- Witness for `thumbnail_selection` on a concrete directory listing with a
non-png file. -/
theorem thumbnail_selection_witness :
    (scanDir ["Tex_Color.png", "Tex.png", "notes.txt"]).filePaths =
      ["Tex_Color.png", "Tex.png"] :=
  ((thumbnail_selection ["Tex_Color.png", "Tex.png", "notes.txt"]
    (by decide) (by decide)).1).trans (by decide)

end Acge
